import Mathlib

/-!
Verification of the MandelbrotJS fractal engine.

This file gives a shallow embedding of the numerical core of the repository
(`Mandelbrot.js` and its variants): the escape-time loop of the WGSL fragment
shader `fsMain`, the CPU orbit tracer `calculateOrbit`, the coordinate
mappings between canvas pixels and the complex plane, the HSV colour mapping,
the zoom-slider target computation `updateZoom`, the per-frame zoom animation
step `animateZoom`/`interpolate`, and the marker-update policy `updateMarker` /
`drawMarker`.

Arithmetic that the source performs on IEEE doubles (or f32 on the GPU) is
embedded over `ℚ`, so every algebraic identity below is exact; the single
transcendental computation (the log-space zoom formula, which calls
`Math.log10` / `Math.pow`) is embedded over `ℝ`.
-/

/-! ## Escape-time evaluation (shader `fsMain`, Mandelbrot.js lines 89-101) -/

/-- One iteration step `z ← z² + c` of the escape loop:
`z = vec2(z.x*z.x - z.y*z.y + c.x, 2.0*z.x*z.y + c.y)`. -/
def zStep (c z : ℚ × ℚ) : ℚ × ℚ :=
  (z.1 * z.1 - z.2 * z.2 + c.1, 2 * z.1 * z.2 + c.2)

/-- Squared magnitude `dot(z, z)` used by the escape test. -/
def normSq (z : ℚ × ℚ) : ℚ :=
  z.1 * z.1 + z.2 * z.2

/-- The shader's escape loop, by remaining budget (`fuel = iterationCount - iter`):
`loop { if (iter >= iterationCount || zSquared > 4.0) break; z = step; iter++ }`.
Returns the number of iterations executed before the loop broke. -/
def escapeGo (c : ℚ × ℚ) : ℕ → ℚ × ℚ → ℕ
  | 0, _ => 0
  | n + 1, z => if 4 < normSq z then 0 else escapeGo c n (zStep c z) + 1

/-- The `iter` value the shader's loop stops with, for parameter `c`,
initial value `z0` and budget `maxIter`. -/
def escapeIter (c z0 : ℚ × ℚ) (maxIter : ℕ) : ℕ :=
  escapeGo c maxIter z0

/-- The EscapeTimeEvaluator contract: iterations together with the escape flag.
The shader has no explicit flag; the classification is the colour branch
`if (iter == iterationCount) { black } else { coloured }` (line 103), so a point
is reported escaped exactly when `iter != iterationCount`. -/
def evaluate (c z0 : ℚ × ℚ) (maxIter : ℕ) : ℕ × Bool :=
  let iter := escapeIter c z0 maxIter
  (iter, iter != maxIter)

/-- The iteration sequence `z_{n+1} = z_n² + c` itself (for reasoning about
which iteration is the intrinsic escape point). -/
def zOrbit (c z0 : ℚ × ℚ) : ℕ → ℚ × ℚ
  | 0 => z0
  | n + 1 => zStep c (zOrbit c z0 n)

/-! ## Orbit tracer (`calculateOrbit`, Mandelbrot.js lines 141-162) -/

/-- The body of `calculateOrbit`'s `for` loop, by remaining budget: update `z`,
push it, then break if the freshly pushed point satisfies `x*x + y*y > 4`. -/
def orbitGo (c : ℚ × ℚ) : ℕ → ℚ × ℚ → List (ℚ × ℚ)
  | 0, _ => []
  | n + 1, z =>
    let z' := zStep c z
    if 4 < normSq z' then [z'] else z' :: orbitGo c n z'

/-- `calculateOrbit(x0, y0, maxIter)`: starts with `orbit = [{x: 0, y: 0}]`,
then runs the loop above for at most `maxIter` iterations. -/
def calculateOrbit (x0 y0 : ℚ) (maxIter : ℕ) : List (ℚ × ℚ) :=
  (0, 0) :: orbitGo (x0, y0) maxIter (0, 0)

/-! ## Coordinate mappings (ComplexPlaneMapper) -/

/-- Pixel-to-plane mapping used by the `mousedown`/`mousemove` handlers in
`drawFractal` (Mandelbrot.js lines 438-439):
`x = (mouseX / canvas.width) * 2 * mandelbrotScale * aspectRatio
     - mandelbrotScale * aspectRatio + mandelbrotCenter.x`,
`y = (mouseY / canvas.height) * -2 * mandelbrotScale
     + mandelbrotScale + mandelbrotCenter.y`. -/
def toPlane (px py w h cx cy scale ar : ℚ) : ℚ × ℚ :=
  ((px / w) * 2 * scale * ar - scale * ar + cx,
   (py / h) * (-2 * scale) + scale + cy)

/-- Plane-to-pixel mapping `toCanvasCoords` (Mandelbrot.js lines 165-170). -/
def toCanvasCoords (p : ℚ × ℚ) (w h cx cy scale ar : ℚ) : ℚ × ℚ :=
  (((p.1 - cx) / (scale * ar)) * (w / 2) + w / 2,
   ((cy - p.2) / scale) * (h / 2) + h / 2)

/-! ## Colour mapping (shader `fsMain`, lines 103-133) -/

/-- The shader's `mod_func(x, y) = x - y * floor(x / y)`. -/
def mod_func (x y : ℚ) : ℚ := x - y * (⌊x / y⌋ : ℤ)

/-- The colour branch of `fsMain`: black when `iter == iterationCount`,
otherwise HSV(360·iter/maxIter, 1, 1) converted to RGB by the six-sector
piecewise formula. -/
def colorFor (iter maxIter : ℕ) : ℚ × ℚ × ℚ :=
  if iter = maxIter then (0, 0, 0)
  else
    let t : ℚ := (iter : ℚ) / (maxIter : ℚ)
    let hue := 360 * t
    let saturation : ℚ := 1
    let value : ℚ := 1
    let c_val := value * saturation
    let x_val := c_val * (1 - |mod_func (hue / 60) 2 - 1|)
    let m := value - c_val
    let rgb : ℚ × ℚ × ℚ :=
      if hue < 60 then (c_val, x_val, 0)
      else if hue < 120 then (x_val, c_val, 0)
      else if hue < 180 then (0, c_val, x_val)
      else if hue < 240 then (0, x_val, c_val)
      else if hue < 300 then (x_val, 0, c_val)
      else (c_val, 0, x_val)
    (rgb.1 + m, rgb.2.1 + m, rgb.2.2 + m)

/-! ## Marker drawing and the out-of-bounds guard -/

/-- `drawMarker`'s geometry (Mandelbrot.js lines 211-238, part_002
lines 243-265): project the marker through `toCanvasCoords`; if the result
lies outside the canvas, return without drawing. The drawn position is
modelled as `some`/`none`. -/
def drawMarker (pos : ℚ × ℚ) (w h cx cy scale ar : ℚ) : Option (ℚ × ℚ) :=
  let cc := toCanvasCoords pos w h cx cy scale ar
  if cc.1 < 0 ∨ w < cc.1 ∨ cc.2 < 0 ∨ h < cc.2 then none else some cc

/-! ## Marker update policy (part_002 `updateMarker`, lines 213-241) -/

/-- The observable state touched by `updateMarker`: the two per-panel markers,
the `c` value last written to the Julia evaluator's uniform buffer, and a
count of Julia redraws (`juliaRender()` invocations). -/
structure PanelState where
  mandelbrotMarker : ℚ × ℚ
  juliaMarker : ℚ × ℚ
  juliaC : ℚ × ℚ
  juliaRenders : ℕ

/-- Which panel a drag happened on. -/
inductive Panel
  | mandelbrot
  | julia

/-- `updateMarker(newPosition, type, sharedState)`: stores the new position in
the panel's own marker; only for the Mandelbrot panel it also writes the Julia
`cValue` buffer and calls `juliaRender()`. -/
def updateMarker (newPos : ℚ × ℚ) : Panel → PanelState → PanelState
  | .mandelbrot, st =>
    { st with mandelbrotMarker := newPos, juliaC := newPos,
              juliaRenders := st.juliaRenders + 1 }
  | .julia, st => { st with juliaMarker := newPos }

/-! ## Zoom-slider target computation (part_002 `updateZoom`, lines 541-555) -/

noncomputable def MIN_SCALE : ℝ := 1 / 1000000

noncomputable def MAX_SCALE : ℝ := 3 / 2

noncomputable def defaultMandelbrotScale : ℝ := 3 / 2

noncomputable def defaultMandelbrotCenter : ℝ × ℝ := (-(1 / 2), 0)

/-- `updateZoom(value, ...)`: slider value 1 resets the target to the default
view; otherwise `normalizedValue = (value-1)/99`,
`exponent = normalizedValue * log10(MIN_SCALE/MAX_SCALE)`,
`targetScale = MAX_SCALE * 10^exponent`, and the target centre is the current
Mandelbrot marker.  Returns `(targetScale, targetCenter)`. -/
noncomputable def updateZoomTarget (v : ℝ) (marker : ℝ × ℝ) : ℝ × (ℝ × ℝ) :=
  if v = 1 then (defaultMandelbrotScale, defaultMandelbrotCenter)
  else
    (MAX_SCALE * (10 : ℝ) ^ (((v - 1) / 99) * Real.logb 10 (MIN_SCALE / MAX_SCALE)),
     marker)

/-! ## Zoom animation (`interpolate` / `animateZoom`, Mandelbrot.js 473-526) -/

/-- The animation stop threshold `0.0001`. -/
def eps : ℚ := 1 / 10000

/-- `const zoomSpeed = 0.05`. -/
def zoomSpeed : ℚ := 1 / 20

/-- `interpolate(current, target, speed)`: move toward the target by `speed`,
saturating at the target. -/
def interpolate (current target speed : ℚ) : ℚ :=
  if current < target then min (current + speed) target
  else max (current - speed) target

/-- The mutable view state read and written by `animateZoom`. -/
@[ext] structure ZoomState where
  scale : ℚ
  cx : ℚ
  cy : ℚ
  tscale : ℚ
  tcx : ℚ
  tcy : ℚ

/-- Scale update of one `animateZoom` frame: interpolate with speed
`zoomSpeed * mandelbrotScale` when farther than the threshold, else leave
untouched. -/
def stepScale (s ts : ℚ) : ℚ :=
  if eps < |s - ts| then interpolate s ts (zoomSpeed * s) else s

/-- Centre-component update of one `animateZoom` frame: interpolate with speed
`zoomSpeed * |current - target|` when farther than the threshold. -/
def stepCenter (x tx : ℚ) : ℚ :=
  if eps < |x - tx| then interpolate x tx (zoomSpeed * |x - tx|) else x

/-- One `animateZoom` frame: the three interpolations; the targets are not
mutated. -/
def animateZoomStep (st : ZoomState) : ZoomState :=
  { st with
    scale := stepScale st.scale st.tscale
    cx := stepCenter st.cx st.tcx
    cy := stepCenter st.cy st.tcy }

/-- The `Idle` state: all three quantities within the threshold of their
targets, so `needsRender` stays false and no further frame is scheduled. -/
def isIdle (st : ZoomState) : Prop :=
  |st.scale - st.tscale| ≤ eps ∧ |st.cx - st.tcx| ≤ eps ∧ |st.cy - st.tcy| ≤ eps


/-! ## Basic facts about the escape loop -/

theorem escapeGo_of_escaped (c : ℚ × ℚ) (n : ℕ) (z : ℚ × ℚ) (h : 4 < normSq z) :
    escapeGo c n z = 0 := by
  cases n <;> simp [escapeGo, h]

theorem escapeGo_succ (c : ℚ × ℚ) (n : ℕ) (z : ℚ × ℚ) (h : ¬ 4 < normSq z) :
    escapeGo c (n + 1) z = escapeGo c n (zStep c z) + 1 := by
  simp [escapeGo, h]

theorem zOrbit_shift (c z0 : ℚ × ℚ) (j : ℕ) :
    zOrbit c (zStep c z0) j = zOrbit c z0 (j + 1) := by
  induction j with
  | zero => rfl
  | succ j ih => simp [zOrbit, ih]

/-- If no escape occurs at indices `< m`, the loop runs out its full budget. -/
theorem escapeGo_eq_budget (c : ℚ × ℚ) (m : ℕ) :
    ∀ z0 : ℚ × ℚ, (∀ j, j < m → normSq (zOrbit c z0 j) ≤ 4) →
      escapeGo c m z0 = m := by
  induction m with
  | zero => intro z0 _; rfl
  | succ m ih =>
    intro z0 hmin
    have h0 : ¬ 4 < normSq z0 := not_lt.mpr (hmin 0 (Nat.succ_pos m))
    rw [escapeGo_succ c m z0 h0, ih (zStep c z0)]
    intro j hj
    rw [zOrbit_shift]
    exact hmin (j + 1) (Nat.succ_lt_succ hj)

/-- If the intrinsic first escape is at index `k ≤ m`, the loop stops with
`iter = k`. -/
theorem escapeGo_eq_first_escape (c : ℚ × ℚ) (k : ℕ) :
    ∀ (z0 : ℚ × ℚ) (m : ℕ), 4 < normSq (zOrbit c z0 k) →
      (∀ j, j < k → normSq (zOrbit c z0 j) ≤ 4) → k ≤ m →
      escapeGo c m z0 = k := by
  induction k with
  | zero =>
    intro z0 m hk _ _
    exact escapeGo_of_escaped c m z0 hk
  | succ k ih =>
    intro z0 m hk hmin hkm
    obtain ⟨m', rfl⟩ : ∃ m', m = m' + 1 :=
      ⟨m - 1, (Nat.succ_pred_eq_of_pos (Nat.lt_of_lt_of_le (Nat.succ_pos k) hkm)).symm⟩
    have h0 : ¬ 4 < normSq z0 := not_lt.mpr (hmin 0 (Nat.succ_pos k))
    rw [escapeGo_succ c m' z0 h0]
    have hk' : 4 < normSq (zOrbit c (zStep c z0) k) := by
      rw [zOrbit_shift]; exact hk
    have hmin' : ∀ j, j < k → normSq (zOrbit c (zStep c z0) j) ≤ 4 := by
      intro j hj
      rw [zOrbit_shift]
      exact hmin (j + 1) (Nat.succ_lt_succ hj)
    rw [ih (zStep c z0) m' hk' hmin' (Nat.succ_le_succ_iff.mp hkm)]

/-- Raising the budget never lowers the reported iteration count. -/
theorem escapeGo_mono (c : ℚ × ℚ) (m₁ : ℕ) :
    ∀ (m₂ : ℕ) (z : ℚ × ℚ), m₁ ≤ m₂ → escapeGo c m₁ z ≤ escapeGo c m₂ z := by
  induction m₁ with
  | zero => intro m₂ z _; exact Nat.zero_le _
  | succ m₁ ih =>
    intro m₂ z h12
    obtain ⟨m₂', rfl⟩ : ∃ m', m₂ = m' + 1 :=
      ⟨m₂ - 1, (Nat.succ_pred_eq_of_pos (Nat.lt_of_lt_of_le (Nat.succ_pos m₁) h12)).symm⟩
    by_cases hz : 4 < normSq z
    · rw [escapeGo_of_escaped c _ z hz, escapeGo_of_escaped c _ z hz]
    · rw [escapeGo_succ c m₁ z hz, escapeGo_succ c m₂' z hz]
      exact Nat.succ_le_succ (ih m₂' (zStep c z) (Nat.succ_le_succ_iff.mp h12))

/-! ## Basic facts about the orbit tracer -/

theorem orbitGo_length_le (c : ℚ × ℚ) : ∀ (n : ℕ) (z : ℚ × ℚ),
    (orbitGo c n z).length ≤ n := by
  intro n
  induction n with
  | zero => intro z; simp [orbitGo]
  | succ n ih =>
    intro z
    by_cases h : 4 < normSq (zStep c z)
    · simp [orbitGo, h]
    · simpa [orbitGo, h] using ih (zStep c z)

/-- The number of points the tracer pushes equals the iteration count the
shader loop reports (provided the starting point has not already escaped,
which holds for the fixed start `z0 = (0,0)`). -/
theorem orbitGo_length_eq_escapeGo (c : ℚ × ℚ) : ∀ (n : ℕ) (z : ℚ × ℚ),
    normSq z ≤ 4 → (orbitGo c n z).length = escapeGo c n z := by
  intro n
  induction n with
  | zero => intro z _; rfl
  | succ n ih =>
    intro z hz
    rw [escapeGo_succ c n z (not_lt.mpr hz)]
    by_cases h : 4 < normSq (zStep c z)
    · simp [orbitGo, h, escapeGo_of_escaped c n _ h]
    · simpa [orbitGo, h] using ih (zStep c z) (not_lt.mp h)

/-- Every point of the orbit except possibly the last satisfies `|z|² ≤ 4`:
the loop stops pushing as soon as a pushed point escapes. -/
theorem orbitGo_dropLast (c : ℚ × ℚ) : ∀ (n : ℕ) (z : ℚ × ℚ),
    normSq z ≤ 4 → ∀ p ∈ (z :: orbitGo c n z).dropLast, normSq p ≤ 4 := by
  intro n
  induction n with
  | zero => intro z _ p hp; simp [orbitGo] at hp
  | succ n ih =>
    intro z hz p hp
    by_cases h : 4 < normSq (zStep c z)
    · simp [orbitGo, h] at hp
      rw [hp]; exact hz
    · simp only [orbitGo, if_neg h, List.dropLast_cons₂, List.mem_cons] at hp
      rcases hp with rfl | hp
      · exact hz
      · exact ih (zStep c z) (not_lt.mp h) p (by simpa using hp)

/-- The orbit of `c = (0,0)` stays at the origin. -/
theorem zOrbit_origin : ∀ j : ℕ, zOrbit ((0 : ℚ), (0 : ℚ)) (0, 0) j = (0, 0) := by
  intro j
  induction j with
  | zero => rfl
  | succ j ih =>
    simp only [zOrbit, ih]
    norm_num [zStep, Prod.ext_iff]

/-- Concrete escape data for `c = (2,0)`: the intrinsic escape index is 2. -/
theorem escape_data_c2 :
    4 < normSq (zOrbit ((2 : ℚ), (0 : ℚ)) (0, 0) 2) ∧
      ∀ j, j < 2 → normSq (zOrbit ((2 : ℚ), (0 : ℚ)) (0, 0) j) ≤ 4 := by
  constructor
  · norm_num [zOrbit, zStep, normSq]
  · intro j hj
    interval_cases j <;> norm_num [zOrbit, zStep, normSq]

/-! ## Claim theorems: escape loop and orbit tracer -/

/-- C1 (counterexample): at `maxIter = 2` the loop for `c = (2,0)` stops with
`iterations = 2` but the escape flag is `false` — the loop exits because
`iter >= iterationCount`, and the colour branch `iter == iterationCount`
classifies the point as inside (black), contradicting the claim's
"escaped = true for any maxIter >= 2". -/
theorem evaluate_c2_budget_two_not_escaped :
    (evaluate ((2 : ℚ), (0 : ℚ)) (0, 0) 2).1 = 2 ∧
      (evaluate ((2 : ℚ), (0 : ℚ)) (0, 0) 2).2 = false := by
  norm_num [evaluate, escapeIter, escapeGo, zStep, normSq]

/-- C1 (amended): for `c = (2,0)`, `z0 = (0,0)` and any budget `maxIter ≥ 2`
the loop stops with `iterations = 2` (so not at iteration 1, since
`|z₁|² = 4` fails the strict test `> 4` while `|z₂|² = 36 > 4`); the escape
flag is `true` exactly when `maxIter ≥ 3`, because at `maxIter = 2` the budget
is exhausted at the same iteration and the point is classified as inside. -/
theorem evaluate_c2_escapes_at_two (m : ℕ) (hm : 2 ≤ m) :
    (evaluate ((2 : ℚ), (0 : ℚ)) (0, 0) m).1 = 2 ∧
      ((evaluate ((2 : ℚ), (0 : ℚ)) (0, 0) m).2 = true ↔ 3 ≤ m) := by
  obtain ⟨hk, hmin⟩ := escape_data_c2
  have hiter : escapeIter ((2 : ℚ), (0 : ℚ)) (0, 0) m = 2 :=
    escapeGo_eq_first_escape _ 2 _ m hk hmin hm
  refine ⟨hiter, ?_⟩
  simp only [evaluate, hiter, bne_iff_ne, ne_eq]
  omega

theorem evaluate_c2_escapes_at_two_witness :
    (evaluate ((2 : ℚ), (0 : ℚ)) (0, 0) 5).1 = 2 ∧
      ((evaluate ((2 : ℚ), (0 : ℚ)) (0, 0) 5).2 = true ↔ 3 ≤ 5) :=
  evaluate_c2_escapes_at_two 5 (by norm_num)

/-- C4: if the iteration sequence for `(c, z0)` first escapes at the intrinsic
index `k`, then any budget `m₁ ≥ k` and any larger budget `m₂ ≥ m₁` report the
same iteration count `k`; and in general a larger budget never reports fewer
iterations. -/
theorem evaluate_budget_stable (c z0 : ℚ × ℚ) (k m₁ m₂ : ℕ)
    (hk : 4 < normSq (zOrbit c z0 k))
    (hmin : ∀ j, j < k → normSq (zOrbit c z0 j) ≤ 4)
    (h₁ : k ≤ m₁) (h₁₂ : m₁ ≤ m₂) :
    (evaluate c z0 m₁).1 = k ∧ (evaluate c z0 m₂).1 = k ∧
      ∀ (c' z' : ℚ × ℚ) (n₁ n₂ : ℕ), n₁ ≤ n₂ →
        (evaluate c' z' n₁).1 ≤ (evaluate c' z' n₂).1 := by
  refine ⟨escapeGo_eq_first_escape c k z0 m₁ hk hmin h₁,
    escapeGo_eq_first_escape c k z0 m₂ hk hmin (h₁.trans h₁₂),
    fun c' z' n₁ n₂ h => escapeGo_mono c' n₁ n₂ z' h⟩

theorem evaluate_budget_stable_witness :
    (evaluate ((2 : ℚ), (0 : ℚ)) (0, 0) 2).1 = 2 ∧
      (evaluate ((2 : ℚ), (0 : ℚ)) (0, 0) 5).1 = 2 ∧
      ∀ (c' z' : ℚ × ℚ) (n₁ n₂ : ℕ), n₁ ≤ n₂ →
        (evaluate c' z' n₁).1 ≤ (evaluate c' z' n₂).1 :=
  evaluate_budget_stable (2, 0) (0, 0) 2 2 5 escape_data_c2.1 escape_data_c2.2
    (by norm_num) (by norm_num)

/-- C5: `calculateOrbit(0, 0, m₁)` has exactly `m₁ + 1` points (the origin
never escapes); `calculateOrbit(2, 0, m₂)` has exactly 3 points for any
`m₂ ≥ 2`; and every orbit starts at `(0,0)`, has at most `maxIter + 1` points,
and every point before the last satisfies `|z|² ≤ 4` (the loop stops as soon
as a pushed point escapes). -/
theorem calculateOrbit_counts (m₁ m₂ : ℕ) (h₁ : 1 ≤ m₁) (h₂ : 2 ≤ m₂)
    (x y : ℚ) (m : ℕ) :
    (calculateOrbit 0 0 m₁).length = m₁ + 1 ∧
      (calculateOrbit 2 0 m₂).length = 3 ∧
      (calculateOrbit x y m).head? = some (0, 0) ∧
      (calculateOrbit x y m).length ≤ m + 1 ∧
      ∀ p ∈ (calculateOrbit x y m).dropLast, normSq p ≤ 4 := by
  have h00 : normSq ((0 : ℚ), (0 : ℚ)) ≤ 4 := by norm_num [normSq]
  refine ⟨?_, ?_, ?_, ?_, ?_⟩
  · have hlen := orbitGo_length_eq_escapeGo ((0 : ℚ), (0 : ℚ)) m₁ (0, 0) h00
    have hb : escapeGo ((0 : ℚ), (0 : ℚ)) m₁ (0, 0) = m₁ :=
      escapeGo_eq_budget _ m₁ _ (fun j _ => by rw [zOrbit_origin]; exact h00)
    simp only [calculateOrbit, List.length_cons, hlen, hb]
  · have hlen := orbitGo_length_eq_escapeGo ((2 : ℚ), (0 : ℚ)) m₂ (0, 0) h00
    have hb : escapeGo ((2 : ℚ), (0 : ℚ)) m₂ (0, 0) = 2 :=
      escapeGo_eq_first_escape _ 2 _ m₂ escape_data_c2.1 escape_data_c2.2 h₂
    simp only [calculateOrbit, List.length_cons, hlen, hb]
  · rfl
  · simpa [calculateOrbit] using orbitGo_length_le (x, y) m (0, 0)
  · exact orbitGo_dropLast (x, y) m (0, 0) h00

theorem calculateOrbit_counts_witness :
    (calculateOrbit 0 0 3).length = 3 + 1 ∧
      (calculateOrbit 2 0 4).length = 3 ∧
      (calculateOrbit 1 1 7).head? = some (0, 0) ∧
      (calculateOrbit 1 1 7).length ≤ 7 + 1 ∧
      ∀ p ∈ (calculateOrbit 1 1 7).dropLast, normSq p ≤ 4 :=
  calculateOrbit_counts 3 4 (by norm_num) (by norm_num) 1 1 7

/-- C10: the CPU orbit tracer and the shader's escape loop agree — for any
`c` the orbit list has exactly `iterations + 1` entries, where `iterations`
is what the escape loop reports for the same `c`, `z0 = (0,0)` and the same
budget, whether or not the point escapes within the budget. -/
theorem calculateOrbit_length_eq_iterations (c : ℚ × ℚ) (m : ℕ) (hm : 1 ≤ m) :
    (calculateOrbit c.1 c.2 m).length = (evaluate c (0, 0) m).1 + 1 := by
  have h00 : normSq ((0 : ℚ), (0 : ℚ)) ≤ 4 := by norm_num [normSq]
  have hlen := orbitGo_length_eq_escapeGo c m (0, 0) h00
  simp only [calculateOrbit, List.length_cons, evaluate, escapeIter, hlen]

theorem calculateOrbit_length_eq_iterations_witness :
    (calculateOrbit (2 : ℚ) (0 : ℚ) 7).length =
      (evaluate ((2 : ℚ), (0 : ℚ)) (0, 0) 7).1 + 1 :=
  calculateOrbit_length_eq_iterations (2, 0) 7 (by norm_num)

/-! ## Claim theorem: coordinate round-trip -/

/-- C2: the forward pixel-to-plane mapping of the `mousedown` handler followed
by `toCanvasCoords` returns the original pixel exactly (over exact
arithmetic), for any view with positive scale, any positive canvas size and
aspect ratio, and any pixel inside the canvas bounds. -/
theorem toCanvasCoords_toPlane (px py w h cx cy scale ar : ℚ)
    (hw : 0 < w) (hh : 0 < h) (hs : 0 < scale) (har : 0 < ar)
    (hpx0 : 0 ≤ px) (hpxw : px ≤ w) (hpy0 : 0 ≤ py) (hpyh : py ≤ h) :
    toCanvasCoords (toPlane px py w h cx cy scale ar) w h cx cy scale ar
      = (px, py) := by
  unfold toPlane toCanvasCoords
  have hs' : scale ≠ 0 := ne_of_gt hs
  have har' : ar ≠ 0 := ne_of_gt har
  have hw' : w ≠ 0 := ne_of_gt hw
  have hh' : h ≠ 0 := ne_of_gt hh
  refine Prod.ext ?_ ?_
  · show ((px / w) * 2 * scale * ar - scale * ar + cx - cx) / (scale * ar)
        * (w / 2) + w / 2 = px
    field_simp
    ring
  · show (cy - ((py / h) * (-2 * scale) + scale + cy)) / scale * (h / 2)
        + h / 2 = py
    field_simp
    ring

theorem toCanvasCoords_toPlane_witness :
    toCanvasCoords (toPlane 100 50 800 600 (-(1/2)) 0 (3/2) (4/3))
      800 600 (-(1/2)) 0 (3/2) (4/3) = (100, 50) :=
  toCanvasCoords_toPlane 100 50 800 600 (-(1/2)) 0 (3/2) (4/3)
    (by norm_num) (by norm_num) (by norm_num) (by norm_num)
    (by norm_num) (by norm_num) (by norm_num) (by norm_num)

/-- C6: a pixel that exhausts the full budget (`iterations = maxIter`) is
coloured exactly black, and no other iteration count produces black — in
every hue sector the chroma component is `value * saturation = 1`, so an
escaped pixel always has an RGB channel equal to 1. -/
theorem colorFor_black_iff (m : ℕ) (hm : 1 ≤ m) :
    colorFor m m = (0, 0, 0) ∧ ∀ i : ℕ, i ≠ m → colorFor i m ≠ (0, 0, 0) := by
  constructor
  · simp [colorFor]
  · intro i hi heq
    simp only [colorFor, if_neg hi] at heq
    split_ifs at heq <;> rw [Prod.ext_iff, Prod.ext_iff] at heq <;>
      norm_num at heq

theorem colorFor_black_iff_witness :
    colorFor 2 2 = (0, 0, 0) ∧ colorFor 1 2 ≠ (0, 0, 0) :=
  ⟨(colorFor_black_iff 2 (by norm_num)).1,
   (colorFor_black_iff 2 (by norm_num)).2 1 (by norm_num)⟩

/-- C9: when the projected position falls outside the canvas the marker is
silently skipped (`none` — the function is total, so no exception), and
whenever a marker is drawn it is drawn at the exact projected position,
inside the canvas — never at a clamped position. -/
theorem drawMarker_skips_out_of_bounds (pos : ℚ × ℚ) (w h cx cy scale ar : ℚ)
    (hout : (toCanvasCoords pos w h cx cy scale ar).1 < 0 ∨
      w < (toCanvasCoords pos w h cx cy scale ar).1 ∨
      (toCanvasCoords pos w h cx cy scale ar).2 < 0 ∨
      h < (toCanvasCoords pos w h cx cy scale ar).2) :
    drawMarker pos w h cx cy scale ar = none ∧
      ∀ (pos' : ℚ × ℚ) (w' h' cx' cy' scale' ar' : ℚ) (p : ℚ × ℚ),
        drawMarker pos' w' h' cx' cy' scale' ar' = some p →
          p = toCanvasCoords pos' w' h' cx' cy' scale' ar' ∧
            0 ≤ p.1 ∧ p.1 ≤ w' ∧ 0 ≤ p.2 ∧ p.2 ≤ h' := by
  constructor
  · simp only [drawMarker, if_pos hout]
  · intro pos' w' h' cx' cy' scale' ar' p hp
    simp only [drawMarker] at hp
    by_cases hcond : (toCanvasCoords pos' w' h' cx' cy' scale' ar').1 < 0 ∨
        w' < (toCanvasCoords pos' w' h' cx' cy' scale' ar').1 ∨
        (toCanvasCoords pos' w' h' cx' cy' scale' ar').2 < 0 ∨
        h' < (toCanvasCoords pos' w' h' cx' cy' scale' ar').2
    · rw [if_pos hcond] at hp
      simp at hp
    · rw [if_neg hcond] at hp
      push_neg at hcond
      obtain ⟨h1, h2, h3, h4⟩ := hcond
      obtain rfl : toCanvasCoords pos' w' h' cx' cy' scale' ar' = p :=
        Option.some.inj hp
      exact ⟨rfl, h1, h2, h3, h4⟩

theorem drawMarker_skips_out_of_bounds_witness :
    drawMarker (100, 0) 2 2 0 0 1 1 = none ∧
      ∀ (pos' : ℚ × ℚ) (w' h' cx' cy' scale' ar' : ℚ) (p : ℚ × ℚ),
        drawMarker pos' w' h' cx' cy' scale' ar' = some p →
          p = toCanvasCoords pos' w' h' cx' cy' scale' ar' ∧
            0 ≤ p.1 ∧ p.1 ≤ w' ∧ 0 ≤ p.2 ∧ p.2 ≤ h' :=
  drawMarker_skips_out_of_bounds (100, 0) 2 2 0 0 1 1
    (by norm_num [toCanvasCoords])

/-- C8: a Mandelbrot-panel drag updates the shared constant feeding the Julia
evaluator and triggers a Julia redraw; a Julia-panel drag moves only the Julia
panel's own visual marker and leaves the Julia evaluator's `c` input, the
Mandelbrot marker and the redraw count unchanged. -/
theorem updateMarker_policy (p : ℚ × ℚ) (st : PanelState) :
    ((updateMarker p .mandelbrot st).mandelbrotMarker = p ∧
      (updateMarker p .mandelbrot st).juliaC = p ∧
      (updateMarker p .mandelbrot st).juliaRenders = st.juliaRenders + 1) ∧
    ((updateMarker p .julia st).juliaMarker = p ∧
      (updateMarker p .julia st).juliaC = st.juliaC ∧
      (updateMarker p .julia st).mandelbrotMarker = st.mandelbrotMarker ∧
      (updateMarker p .julia st).juliaRenders = st.juliaRenders) := by
  simp [updateMarker]

/-- C3: slider value 1 resets the target to the default unzoomed view; a value
`v ∈ (1, 100]` sets the target scale to
`MAX_SCALE * 10^(((v-1)/99) * log10(MIN_SCALE/MAX_SCALE))` with the target
centre at the current shared-constant position; and `v = 100` lands exactly on
`MIN_SCALE`. -/
theorem updateZoomTarget_spec (marker : ℝ × ℝ) :
    updateZoomTarget 1 marker = (defaultMandelbrotScale, defaultMandelbrotCenter) ∧
      (∀ v : ℝ, 1 < v → v ≤ 100 →
        updateZoomTarget v marker =
          (MAX_SCALE * (10 : ℝ) ^ (((v - 1) / 99) * Real.logb 10 (MIN_SCALE / MAX_SCALE)),
           marker)) ∧
      (updateZoomTarget 100 marker).1 = MIN_SCALE := by
  refine ⟨by simp [updateZoomTarget], fun v hv _ => by
    simp [updateZoomTarget, ne_of_gt hv], ?_⟩
  have h100 : (100 : ℝ) ≠ 1 := by norm_num
  simp only [updateZoomTarget, if_neg h100]
  have hone : ((100 : ℝ) - 1) / 99 = 1 := by norm_num
  rw [hone, one_mul,
    Real.rpow_logb (by norm_num) (by norm_num)
      (by norm_num [MIN_SCALE, MAX_SCALE])]
  norm_num [MIN_SCALE, MAX_SCALE]

theorem updateZoomTarget_spec_witness :
    updateZoomTarget 1 ((0 : ℝ), (0 : ℝ))
        = (defaultMandelbrotScale, defaultMandelbrotCenter) ∧
      updateZoomTarget 50 ((0 : ℝ), (0 : ℝ)) =
        (MAX_SCALE * (10 : ℝ) ^ ((((50 : ℝ) - 1) / 99)
            * Real.logb 10 (MIN_SCALE / MAX_SCALE)), (0, 0)) ∧
      (updateZoomTarget 100 ((0 : ℝ), (0 : ℝ))).1 = MIN_SCALE :=
  ⟨(updateZoomTarget_spec (0, 0)).1,
   (updateZoomTarget_spec (0, 0)).2.1 50 (by norm_num) (by norm_num),
   (updateZoomTarget_spec (0, 0)).2.2⟩

theorem stepScale_of_close (s ts : ℚ) (h : |s - ts| ≤ eps) : stepScale s ts = s :=
  if_neg (not_lt.mpr h)

theorem stepCenter_of_close (x tx : ℚ) (h : |x - tx| ≤ eps) : stepCenter x tx = x :=
  if_neg (not_lt.mpr h)

theorem animateZoomStep_of_isIdle (st : ZoomState) (h : isIdle st) :
    animateZoomStep st = st := by
  obtain ⟨h1, h2, h3⟩ := h
  ext
  · exact stepScale_of_close _ _ h1
  · exact stepCenter_of_close _ _ h2
  · exact stepCenter_of_close _ _ h3
  · rfl
  · rfl
  · rfl

theorem iterate_tscale (st : ZoomState) (n : ℕ) :
    (animateZoomStep^[n] st).tscale = st.tscale := by
  induction n with
  | zero => rfl
  | succ n ih => rw [Function.iterate_succ_apply']; exact ih

theorem iterate_tcx (st : ZoomState) (n : ℕ) :
    (animateZoomStep^[n] st).tcx = st.tcx := by
  induction n with
  | zero => rfl
  | succ n ih => rw [Function.iterate_succ_apply']; exact ih

theorem iterate_tcy (st : ZoomState) (n : ℕ) :
    (animateZoomStep^[n] st).tcy = st.tcy := by
  induction n with
  | zero => rfl
  | succ n ih => rw [Function.iterate_succ_apply']; exact ih

theorem iterate_scale (st : ZoomState) (n : ℕ) :
    (animateZoomStep^[n] st).scale =
      (fun s => stepScale s st.tscale)^[n] st.scale := by
  induction n with
  | zero => rfl
  | succ n ih =>
    rw [Function.iterate_succ_apply', Function.iterate_succ_apply']
    show stepScale (animateZoomStep^[n] st).scale (animateZoomStep^[n] st).tscale = _
    rw [iterate_tscale, ih]

theorem iterate_cx (st : ZoomState) (n : ℕ) :
    (animateZoomStep^[n] st).cx = (fun x => stepCenter x st.tcx)^[n] st.cx := by
  induction n with
  | zero => rfl
  | succ n ih =>
    rw [Function.iterate_succ_apply', Function.iterate_succ_apply']
    show stepCenter (animateZoomStep^[n] st).cx (animateZoomStep^[n] st).tcx = _
    rw [iterate_tcx, ih]

theorem iterate_cy (st : ZoomState) (n : ℕ) :
    (animateZoomStep^[n] st).cy = (fun y => stepCenter y st.tcy)^[n] st.cy := by
  induction n with
  | zero => rfl
  | succ n ih =>
    rw [Function.iterate_succ_apply', Function.iterate_succ_apply']
    show stepCenter (animateZoomStep^[n] st).cy (animateZoomStep^[n] st).tcy = _
    rw [iterate_tcy, ih]

/-- Geometric factors shrink below any positive bound. -/
theorem geom_small (d : ℚ) (hd : 0 ≤ d) : ∃ n : ℕ, (19 / 20 : ℚ) ^ n * d ≤ eps := by
  by_cases hd0 : d = 0
  · exact ⟨0, by norm_num [hd0, eps]⟩
  · have hdpos : 0 < d := lt_of_le_of_ne hd (Ne.symm hd0)
    obtain ⟨n, hn⟩ := exists_pow_lt_of_lt_one
      (show (0 : ℚ) < eps / d from div_pos (by norm_num [eps]) hdpos)
      (show (19 / 20 : ℚ) < 1 by norm_num)
    exact ⟨n, (le_div_iff₀ hdpos).mp hn.le⟩

/-- While the centre component is farther than the threshold, one frame
multiplies its distance to the target by exactly `1 - zoomSpeed = 19/20`. -/
theorem stepCenter_dist (x tx : ℚ) (h : eps < |x - tx|) :
    |stepCenter x tx - tx| = (19 / 20) * |x - tx| := by
  rw [stepCenter, if_pos h]
  rcases lt_trichotomy x tx with hlt | heq | hgt
  · have habs : |x - tx| = tx - x := by
      rw [abs_of_neg (by linarith)]; ring
    rw [interpolate, if_pos hlt, habs, zoomSpeed,
      min_eq_left (by linarith : x + 1 / 20 * (tx - x) ≤ tx)]
    rw [show x + 1 / 20 * (tx - x) - tx = -(19 / 20 * (tx - x)) by ring,
      abs_neg, abs_of_nonneg (by linarith)]
  · rw [heq, sub_self, abs_zero] at h
    norm_num [eps] at h
  · have habs : |x - tx| = x - tx := abs_of_pos (by linarith)
    rw [interpolate, if_neg (not_lt.mpr hgt.le), habs, zoomSpeed,
      max_eq_left (by linarith : tx ≤ x - 1 / 20 * (x - tx))]
    rw [show x - 1 / 20 * (x - tx) - tx = 19 / 20 * (x - tx) by ring,
      abs_of_nonneg (by linarith)]

/-- Every centre component comes within the threshold of its target after
finitely many frames. -/
theorem stepCenter_iter_converges (x tx : ℚ) :
    ∃ n : ℕ, |(fun y => stepCenter y tx)^[n] x - tx| ≤ eps := by
  have inv : ∀ n : ℕ, |(fun y => stepCenter y tx)^[n] x - tx| ≤ eps ∨
      |(fun y => stepCenter y tx)^[n] x - tx| = (19 / 20) ^ n * |x - tx| := by
    intro n
    induction n with
    | zero => right; simp
    | succ n ih =>
      rcases ih with h | h
      · left
        rw [Function.iterate_succ_apply', stepCenter_of_close _ _ h]
        exact h
      · by_cases hc : eps < |(fun y => stepCenter y tx)^[n] x - tx|
        · right
          rw [Function.iterate_succ_apply', stepCenter_dist _ _ hc, h, pow_succ]
          ring
        · left
          rw [Function.iterate_succ_apply', stepCenter_of_close _ _ (not_lt.mp hc)]
          exact not_lt.mp hc
  obtain ⟨n, hn⟩ := geom_small |x - tx| (abs_nonneg _)
  exact ⟨n, (inv n).elim id (fun h => h ▸ hn)⟩

/-- One frame of the scale animation while above the target: the new scale
stays at or above the target and the distance contracts by at least `19/20`
(the `max` saturates exactly at the target). -/
theorem stepScale_down (s ts : ℚ) (hts : 0 < ts) (hgt : ts < s)
    (h : eps < |s - ts|) :
    ts ≤ stepScale s ts ∧ stepScale s ts - ts ≤ (19 / 20) * (s - ts) := by
  rw [stepScale, if_pos h, interpolate, if_neg (not_lt.mpr hgt.le), zoomSpeed]
  refine ⟨le_max_right _ _, ?_⟩
  rw [sub_le_iff_le_add]
  apply max_le <;> nlinarith

/-- One frame of the scale animation while below the target: multiply by
`1 + zoomSpeed = 21/20`, saturating at the target. -/
theorem stepScale_up (s ts : ℚ) (hlt : s < ts) (h : eps < |s - ts|) :
    stepScale s ts = min ((21 / 20) * s) ts := by
  rw [stepScale, if_pos h, interpolate, if_pos hlt, zoomSpeed]
  congr 1
  ring

/-- The scale comes within the threshold of any positive target after
finitely many frames, from any positive starting scale. -/
theorem stepScale_iter_converges (s ts : ℚ) (hs : 0 < s) (hts : 0 < ts) :
    ∃ n : ℕ, |(fun y => stepScale y ts)^[n] s - ts| ≤ eps := by
  rcases lt_trichotomy s ts with hlt | heq | hgt
  · -- zooming out: scale grows geometrically until it saturates at the target
    have inv : ∀ n : ℕ, |(fun y => stepScale y ts)^[n] s - ts| ≤ eps ∨
        (0 < (fun y => stepScale y ts)^[n] s ∧
          (fun y => stepScale y ts)^[n] s ≤ ts ∧
          (21 / 20) ^ n * s ≤ (fun y => stepScale y ts)^[n] s) := by
      intro n
      induction n with
      | zero =>
        by_cases h0 : |s - ts| ≤ eps
        · exact Or.inl h0
        · exact Or.inr ⟨hs, hlt.le, by simp⟩
      | succ n ih =>
        rcases ih with h | ⟨hpos, hle, hbound⟩
        · left
          rw [Function.iterate_succ_apply', stepScale_of_close _ _ h]
          exact h
        · by_cases hc : eps < |(fun y => stepScale y ts)^[n] s - ts|
          · have hne : (fun y => stepScale y ts)^[n] s ≠ ts := by
              intro he
              rw [he, sub_self, abs_zero] at hc
              norm_num [eps] at hc
            have hlt' : (fun y => stepScale y ts)^[n] s < ts :=
              lt_of_le_of_ne hle hne
            rw [Function.iterate_succ_apply', stepScale_up _ _ hlt' hc]
            by_cases hm : (21 / 20) * (fun y => stepScale y ts)^[n] s ≤ ts
            · right
              refine ⟨lt_min (by linarith) hts, min_le_right _ _, ?_⟩
              rw [min_eq_left hm, pow_succ]
              nlinarith
            · left
              rw [min_eq_right (le_of_not_le hm), sub_self, abs_zero]
              norm_num [eps]
          · left
            rw [Function.iterate_succ_apply',
              stepScale_of_close _ _ (not_lt.mp hc)]
            exact not_lt.mp hc
    obtain ⟨N, hN⟩ := pow_unbounded_of_one_lt (ts / s)
      (show (1 : ℚ) < 21 / 20 by norm_num)
    refine ⟨N, ?_⟩
    rcases inv N with h | ⟨_, hle, hbound⟩
    · exact h
    · exfalso
      have : ts < (21 / 20) ^ N * s := by
        rw [div_lt_iff₀ hs] at hN
        linarith
      linarith
  · exact ⟨0, by simp [heq, eps]⟩
  · -- zooming in: the distance above the target contracts geometrically
    have inv : ∀ n : ℕ, |(fun y => stepScale y ts)^[n] s - ts| ≤ eps ∨
        (ts ≤ (fun y => stepScale y ts)^[n] s ∧
          (fun y => stepScale y ts)^[n] s - ts ≤ (19 / 20) ^ n * (s - ts)) := by
      intro n
      induction n with
      | zero =>
        by_cases h0 : |s - ts| ≤ eps
        · exact Or.inl h0
        · exact Or.inr ⟨hgt.le, by simp⟩
      | succ n ih =>
        rcases ih with h | ⟨hge, hbound⟩
        · left
          rw [Function.iterate_succ_apply', stepScale_of_close _ _ h]
          exact h
        · by_cases hc : eps < |(fun y => stepScale y ts)^[n] s - ts|
          · have hne : (fun y => stepScale y ts)^[n] s ≠ ts := by
              intro he
              rw [he, sub_self, abs_zero] at hc
              norm_num [eps] at hc
            have hgt' : ts < (fun y => stepScale y ts)^[n] s :=
              lt_of_le_of_ne hge (Ne.symm hne)
            obtain ⟨hge', hcontr⟩ := stepScale_down _ _ hts hgt' hc
            right
            rw [Function.iterate_succ_apply']
            refine ⟨hge', le_trans hcontr ?_⟩
            rw [pow_succ]
            nlinarith [pow_nonneg (show (0 : ℚ) ≤ 19 / 20 by norm_num) n]
          · left
            rw [Function.iterate_succ_apply',
              stepScale_of_close _ _ (not_lt.mp hc)]
            exact not_lt.mp hc
    obtain ⟨N, hN⟩ := geom_small (s - ts) (by linarith)
    refine ⟨N, ?_⟩
    rcases inv N with h | ⟨hge, hbound⟩
    · exact h
    · rw [abs_of_nonneg (by linarith)]
      linarith

/-- Once a point is fixed by `f` at stage `n`, every later iterate agrees. -/
theorem iter_eventually_fixed {α : Type _} {f : α → α} {x : α} {n m : ℕ}
    (hnm : n ≤ m) (hfix : f (f^[n] x) = f^[n] x) : f^[m] x = f^[n] x := by
  obtain ⟨k, rfl⟩ := Nat.exists_eq_add_of_le hnm
  clear hnm
  induction k with
  | zero => rfl
  | succ k ih =>
    show f^[(n + k) + 1] x = f^[n] x
    rw [Function.iterate_succ_apply', ih, hfix]

/-- C7: from any state with positive current and target scale (the targets
set by `updateZoom` are always in `[MIN_SCALE, MAX_SCALE]`, hence positive),
repeatedly running the `animateZoom` frame step reaches the Idle state — all
three interpolated quantities within the `1e-4` threshold of their targets —
after finitely many frames, after which the state never changes again; and
any Idle state is left completely unmutated by a frame step. -/
theorem animateZoom_converges (st : ZoomState) (hs : 0 < st.scale)
    (hts : 0 < st.tscale) :
    (∃ n : ℕ, isIdle (animateZoomStep^[n] st) ∧
      ∀ m : ℕ, n ≤ m → animateZoomStep^[m] st = animateZoomStep^[n] st) ∧
    ∀ st' : ZoomState, isIdle st' → animateZoomStep st' = st' := by
  refine ⟨?_, fun st' h => animateZoomStep_of_isIdle st' h⟩
  obtain ⟨n₁, h1⟩ := stepScale_iter_converges st.scale st.tscale hs hts
  obtain ⟨n₂, h2⟩ := stepCenter_iter_converges st.cx st.tcx
  obtain ⟨n₃, h3⟩ := stepCenter_iter_converges st.cy st.tcy
  set N := max n₁ (max n₂ n₃) with hN
  have hsc : (animateZoomStep^[N] st).scale =
      (fun y => stepScale y st.tscale)^[n₁] st.scale := by
    rw [iterate_scale]
    exact iter_eventually_fixed (le_max_left _ _)
      (stepScale_of_close _ _ (by simpa using h1))
  have hx : (animateZoomStep^[N] st).cx =
      (fun y => stepCenter y st.tcx)^[n₂] st.cx := by
    rw [iterate_cx]
    exact iter_eventually_fixed (le_trans (le_max_left _ _) (le_max_right _ _))
      (stepCenter_of_close _ _ (by simpa using h2))
  have hy : (animateZoomStep^[N] st).cy =
      (fun y => stepCenter y st.tcy)^[n₃] st.cy := by
    rw [iterate_cy]
    exact iter_eventually_fixed (le_trans (le_max_right _ _) (le_max_right _ _))
      (stepCenter_of_close _ _ (by simpa using h3))
  have hidle : isIdle (animateZoomStep^[N] st) := by
    refine ⟨?_, ?_, ?_⟩
    · rw [hsc, iterate_tscale]; exact h1
    · rw [hx, iterate_tcx]; exact h2
    · rw [hy, iterate_tcy]; exact h3
  refine ⟨N, hidle, fun m hm => ?_⟩
  exact iter_eventually_fixed hm (animateZoomStep_of_isIdle _ hidle)

theorem animateZoom_converges_witness :
    (∃ n : ℕ, isIdle (animateZoomStep^[n] ⟨3/2, -(1/2), 0, 1/100, 1/4, 1/4⟩) ∧
      ∀ m : ℕ, n ≤ m → animateZoomStep^[m] ⟨3/2, -(1/2), 0, 1/100, 1/4, 1/4⟩
        = animateZoomStep^[n] ⟨3/2, -(1/2), 0, 1/100, 1/4, 1/4⟩) ∧
    ∀ st' : ZoomState, isIdle st' → animateZoomStep st' = st' :=
  animateZoom_converges ⟨3/2, -(1/2), 0, 1/100, 1/4, 1/4⟩
    (by norm_num) (by norm_num)
